import Mathlib

/- Shallow embedding of the reactive collection engine and the resource
   lifecycle manager of the nionswift repository: the insert/remove
   reconciliation pass `DataItemsBinding._update_data_items`, the change-scope
   counter (`begin_change`/`end_change`), the `collections.Counter` aggregate
   used by `DataItemsInContainerBinding` and `DataGroup`, the transaction and
   write-delay machinery of `DataItem`, and the data reference counting of
   `BufferedDataSource`. -/

/-- Items carry an opaque, stable, comparable identity; we model them as
naturals. -/
abbrev Item := Nat

/-- The two kinds of events `_update_data_items` emits to listeners. -/
inductive EOp where
  | insert
  | remove
deriving DecidableEq, Repr

/-- One listener notification `(op, item, index)`. -/
structure Event where
  op : EOp
  item : Item
  index : Nat
deriving DecidableEq, Repr

/-- Replay one event against a list, exactly how `_update_data_items` mutates
`self.__data_items` at the moment the event is emitted (`insert` at the event
index, `del` at the event index). -/
def applyEvent (l : List Item) (e : Event) : List Item :=
  match e.op with
  | .insert => l.insertIdx e.index e.item
  | .remove => l.eraseIdx e.index

/-- Replay a whole event sequence left to right. -/
def replayEvents (l : List Item) (es : List Event) : List Item :=
  es.foldl applyEvent l

/-- DataItemsBinding.py lines 110-117: if the old data item at the current
index is not in the new list at all, remove it from the working copy and the
authoritative list (kept identical, mutated in lockstep with the emitted
event).  In the source this is a single `if`, executed once per index, not a
loop. -/
def staleStep (dataItems o : List Item) (index : Nat) : List Item × List Event :=
  match o[index]? with
  | some x =>
      if x ∉ dataItems then (o.eraseIdx index, [⟨.remove, x, index⟩]) else (o, [])
  | none => (o, [])

/-- DataItemsBinding.py lines 118-140: if the new data item at the current
index is in the old list, remove it at its old index and re-insert it at the
current index (unless the positions agree); otherwise insert it at the current
index.  The source asserts `index <= old_index`; under the no-duplicate
hypotheses proved below that assertion always holds, and the `index < old_index`
test makes the `old_index < index` branch unreachable. -/
def placeStep (dataItem : Item) (index : Nat) (o : List Item) : List Item × List Event :=
  if dataItem ∈ o then
    if index < o.indexOf dataItem then
      ((o.eraseIdx (o.indexOf dataItem)).insertIdx index dataItem,
        [⟨.remove, dataItem, o.indexOf dataItem⟩, ⟨.insert, dataItem, index⟩])
    else (o, [])
  else (o.insertIdx index dataItem, [⟨.insert, dataItem, index⟩])

/-- DataItemsBinding.py lines 142-149, the `while index < len(old_data_items)`
tail loop, written with explicit fuel (the fuel `o.length - index` is exactly
the number of iterations the Python loop performs, since every iteration
shortens the list by one while `index` stays fixed). -/
def tailLoop : Nat → Nat → List Item → List Item × List Event
  | 0, _, o => (o, [])
  | fuel + 1, index, o =>
    match o[index]? with
    | some x =>
        let r := tailLoop fuel index (o.eraseIdx index)
        (r.1, ⟨EOp.remove, x, index⟩ :: r.2)
    | none => (o, [])

/-- Tail cleanup: anything left in the old list past the last processed index
is removed, always at the same fixed position. -/
def tailCleanup (index : Nat) (o : List Item) : List Item × List Event :=
  tailLoop (o.length - index) index o

/-- DataItemsBinding.py lines 108-149: the main `for data_item in data_items`
loop of `_update_data_items`, followed by the tail cleanup.  `dataItems` is the
full freshly computed target list, the second argument is its still unprocessed
suffix, `index` the current position, and `o` the working old list (equal at
every step to the authoritative `self.__data_items`). -/
def settleLoop (dataItems : List Item) : List Item → Nat → List Item → List Item × List Event
  | [], index, o => tailCleanup index o
  | dataItem :: rest, index, o =>
    let s := staleStep dataItems o index
    let p := placeStep dataItem index s.1
    let r := settleLoop dataItems rest (index + 1) p.1
    (r.1, s.2 ++ p.2 ++ r.2)

/-- The event-generating half of `DataItemsBinding._update_data_items`
(lines 104-149): given the previous authoritative list and the freshly
computed target list, produce the final authoritative list together with the
emitted `(op, item, index)` event sequence. -/
def update_data_items (old new : List Item) : List Item × List Event :=
  settleLoop new new 0 old

/-! ### The spec's description of step 1 as a `while` loop, for comparison -/

/-- Modelled from the spec: step 1 of the settle algorithm as worded in the
spec ("While the element currently at position i in the remaining old_list
exists and is absent from new_list entirely: emit remove(old_list[i], i),
delete it from both the working old_list and the authoritative list"), i.e. a
loop repeating until the element at position i is present in the new list.
The code performs a single conditional instead; this definition exists only to
compare the code against the spec's wording. -/
def staleLoopSpec (dataItems : List Item) : Nat → Nat → List Item → List Item × List Event
  | 0, _, o => (o, [])
  | fuel + 1, index, o =>
    match o[index]? with
    | some x =>
        if x ∉ dataItems then
          let r := staleLoopSpec dataItems fuel index (o.eraseIdx index)
          (r.1, ⟨EOp.remove, x, index⟩ :: r.2)
        else (o, [])
    | none => (o, [])

/-- Modelled from the spec: the settle pass with the spec's `while` version of
step 1 in place of the code's single conditional. -/
def settleLoopSpec (dataItems : List Item) : List Item → Nat → List Item → List Item × List Event
  | [], index, o => tailCleanup index o
  | dataItem :: rest, index, o =>
    let s := staleLoopSpec dataItems (o.length - index) index o
    let p := placeStep dataItem index s.1
    let r := settleLoopSpec dataItems rest (index + 1) p.1
    (r.1, s.2 ++ p.2 ++ r.2)

/-- Modelled from the spec: the full settle pass as the spec words it. -/
def update_data_items_spec (old new : List Item) : List Item × List Event :=
  settleLoopSpec new new 0 old

/-! ### The counted-items aggregate: Python `collections.Counter` as an
insertion-ordered association list from item identity to integer count -/

/-- One step of `Counter.update`/`Counter.subtract`: `c[k] = c.get(k, 0) + v`,
updating the entry in place if the key is present (Python dicts keep the
position of an existing key) and appending a new entry otherwise. -/
def counter_set_add : List (Item × Int) → Item → Int → List (Item × Int)
  | [], k, v => [(k, v)]
  | p :: rest, k, v =>
      if p.1 = k then (p.1, p.2 + v) :: rest else p :: counter_set_add rest k v

/-- `Counter.update(d)`: add the delta's counts key by key. -/
def counter_update (c d : List (Item × Int)) : List (Item × Int) :=
  d.foldl (fun acc p => counter_set_add acc p.1 p.2) c

/-- `Counter.subtract(d)`: subtract the delta's counts key by key. -/
def counter_subtract (c d : List (Item × Int)) : List (Item × Int) :=
  d.foldl (fun acc p => counter_set_add acc p.1 (-p.2)) c

/-- `counter += collections.Counter()` — the "strip empty items" idiom used by
`subtract_counted_data_items` and `subtract_counted_display_items`: keep only
the entries whose count is strictly positive. -/
def counter_strip (c : List (Item × Int)) : List (Item × Int) :=
  c.filter (fun p => 0 < p.2)

/-- Mapping view of a counter: the count stored for a key, if any entry for
that key exists (Python `Counter` equality compares exactly this mapping,
ignoring insertion order). -/
def cfind : List (Item × Int) → Item → Option Int
  | [], _ => none
  | p :: rest, k => if p.1 = k then some p.2 else cfind rest k

/-- The keys of a counter in insertion order — what `for data_item in
self._get_master_data_items()` iterates for a `DataItemsInContainerBinding`. -/
def ckeys (c : List (Item × Int)) : List Item := c.map Prod.fst

/-- `DataItemsInContainerBinding.update_counted_data_items` (and
`DataGroup.update_counted_display_items`): merge added counts; no stripping. -/
def update_counted_data_items (c d : List (Item × Int)) : List (Item × Int) :=
  counter_update c d

/-- `DataItemsInContainerBinding.subtract_counted_data_items` (and
`DataGroup.subtract_counted_display_items`): subtract counts, then strip empty
items. -/
def subtract_counted_data_items (c d : List (Item × Int)) : List (Item × Int) :=
  counter_strip (counter_subtract c d)

/-! ### Building the proposed list: master data filter, sort, filter, expand -/

/-- Python's stable `list.sort(key=sort_key, reverse=reverse)`, modelled with
insertion sort (also stable) over the key order. -/
def sortByKey (key : Item → Nat) (rev : Bool) (l : List Item) : List Item :=
  if rev then l.insertionSort (fun x y => key y ≤ key x)
  else l.insertionSort (fun x y => key x ≤ key y)

/-- The first half of `_update_data_items` (DataItemsBinding.py lines 84-103):
keep master items that have master data, sort them when a sort is set, then
for each item passing the filter append the item followed by its dependent
data items (`DataGroup.get_flat_data_item_generator_in_container`). -/
def buildDataItems (hasMasterData : Item → Bool) (dependents : Item → List Item)
    (filt : Option (Item → Bool)) (srt : Option ((Item → Nat) × Bool))
    (master : List Item) : List Item :=
  let masterDataItems := master.filter hasMasterData
  let sorted := match srt with
    | some kr => sortByKey kr.1 kr.2 masterDataItems
    | none => masterDataItems
  (sorted.filter (fun x => match filt with | some f => f x | none => true)).flatMap
    (fun x => x :: dependents x)

/-! ### The Binding state machine -/

/-- The state of a `DataItemsInContainerBinding`: change level, counted data
items, optional filter and sort, the authoritative `__data_items` list, and a
count of how many times the recompute in `_update_data_items` has actually run
(i.e. proceeded past the change-level guard). -/
structure Binding where
  change_level : Int
  counted_data_items : List (Item × Int)
  filt : Option (Item → Bool)
  srt : Option ((Item → Nat) × Bool)
  data_items : List Item
  settle_count : Nat

/-- A freshly constructed binding: empty, level 0, no filter, no sort. -/
def Binding.init : Binding := ⟨0, [], none, none, [], 0⟩

/-- `DataItemsBinding._update_data_items` at the state level (lines 80-149):
return immediately while inside a change scope; otherwise build the proposed
list and, provided the `assert len(set(data_items)) == len(data_items)` on the
proposed list holds (a failing Python assert raises before any mutation of
`__data_items`), run the settle pass against the authoritative list. -/
def binding_update_data_items (hasMasterData : Item → Bool)
    (dependents : Item → List Item) (s : Binding) : Binding :=
  if 0 < s.change_level then s
  else
    let newList := buildDataItems hasMasterData dependents s.filt s.srt
      (ckeys s.counted_data_items)
    if newList.Nodup then
      { s with
        data_items := (update_data_items s.data_items newList).1
        settle_count := s.settle_count + 1 }
    else
      { s with settle_count := s.settle_count + 1 }

/-- `begin_change`: increment the change level. -/
def begin_change (s : Binding) : Binding :=
  { s with change_level := s.change_level + 1 }

/-- `end_change`: decrement the change level and, if it reached zero, run
`_update_data_items`. -/
def end_change (hasMasterData : Item → Bool) (dependents : Item → List Item)
    (s : Binding) : Binding :=
  let s' := { s with change_level := s.change_level - 1 }
  if s'.change_level = 0 then binding_update_data_items hasMasterData dependents s'
  else s'

/-- The sort property setter: store the sort, then update. -/
def set_sort (hasMasterData : Item → Bool) (dependents : Item → List Item)
    (srt : Option ((Item → Nat) × Bool)) (s : Binding) : Binding :=
  binding_update_data_items hasMasterData dependents { s with srt := srt }

/-- The filter property setter: store the filter, then update. -/
def set_filter (hasMasterData : Item → Bool) (dependents : Item → List Item)
    (filt : Option (Item → Bool)) (s : Binding) : Binding :=
  binding_update_data_items hasMasterData dependents { s with filt := filt }

/-- `update_counted_data_items` on the binding: merge the delta, then update. -/
def binding_update_counted (hasMasterData : Item → Bool)
    (dependents : Item → List Item) (d : List (Item × Int)) (s : Binding) : Binding :=
  binding_update_data_items hasMasterData dependents
    { s with counted_data_items := update_counted_data_items s.counted_data_items d }

/-- `subtract_counted_data_items` on the binding: subtract the delta (stripping
empty items), then update. -/
def binding_subtract_counted (hasMasterData : Item → Bool)
    (dependents : Item → List Item) (d : List (Item × Int)) (s : Binding) : Binding :=
  binding_update_data_items hasMasterData dependents
    { s with counted_data_items := subtract_counted_data_items s.counted_data_items d }

/-- The operations a client can perform on a binding. -/
inductive BOp where
  | beginChange
  | endChange
  | updateCounted (d : List (Item × Int))
  | subtractCounted (d : List (Item × Int))
  | setFilter (f : Option (Item → Bool))
  | setSort (k : Option ((Item → Nat) × Bool))

/-- Apply one operation to a binding state. -/
def applyBOp (hasMasterData : Item → Bool) (dependents : Item → List Item)
    (s : Binding) : BOp → Binding
  | .beginChange => begin_change s
  | .endChange => end_change hasMasterData dependents s
  | .updateCounted d => binding_update_counted hasMasterData dependents d s
  | .subtractCounted d => binding_subtract_counted hasMasterData dependents d s
  | .setFilter f => set_filter hasMasterData dependents f s
  | .setSort k => set_sort hasMasterData dependents k s

/-- Run a sequence of operations from the freshly constructed binding; the
results of `runBinding` are exactly the reachable binding states. -/
def runBinding (hasMasterData : Item → Bool) (dependents : Item → List Item)
    (ops : List BOp) : Binding :=
  ops.foldl (applyBOp hasMasterData dependents) Binding.init

/-! ### DataItem: transaction state, write delay and pending writes -/

/-- The persistence calls a `DataItem` can issue through its
`persistent_object_context`. -/
inductive WriteCall where
  | write_data_item
  | rewrite_data_item_properties
  | rewrite_data_item_data
deriving DecidableEq, Repr

/-- The slice of `DataItem` state driving the transaction / write-delay /
pending-write machinery (DataItem.py lines 789-793, 944-995).  The modification
counter `modified_count` lives in the persistence base class; here it is just a
counter advanced by every property or data modification. -/
structure DItem where
  in_transaction_state : Bool
  pending_write : Bool
  write_delay_modified_count : Nat
  write_delay_data_changed : Bool
  modified_count : Nat
  has_persistent_object_context : Bool
  write_delayed : Bool
deriving DecidableEq, Repr

/-- `DataItem.__init__` (lines 789-793): not in transaction, pending write set,
write-delay counters cleared, no persistent object context yet. -/
def DItem.init : DItem :=
  ⟨false, true, 0, false, 0, false, false⟩

/-- `DataItem.read_from_dict` (line 1023): clears the pending write. -/
def read_from_dict (s : DItem) : DItem :=
  { s with pending_write := false }

/-- `DataItem.__enter_write_delay_state` (lines 948-954): record the current
modification count, clear the data-changed flag, and mark the persistent
storage write-delayed when a context exists. -/
def enter_write_delay_state (s : DItem) : DItem :=
  { s with
    write_delay_modified_count := s.modified_count
    write_delay_data_changed := false
    write_delayed := if s.has_persistent_object_context then true else s.write_delayed }

/-- `DataItem._finish_pending_write` (lines 963-971): a still-pending item is
written in full; otherwise properties are rewritten only if the modification
counter advanced past the value recorded at write-delay entry, and data is
rewritten only if the data-changed flag was set. -/
def finish_pending_write (s : DItem) : DItem × List WriteCall :=
  if s.pending_write then
    ({ s with pending_write := false }, [WriteCall.write_data_item])
  else
    (s, (if s.write_delay_modified_count < s.modified_count
           then [WriteCall.rewrite_data_item_properties] else [])
        ++ (if s.write_delay_data_changed
              then [WriteCall.rewrite_data_item_data] else []))

/-- `DataItem.__exit_write_delay_state` (lines 956-961): when a persistent
object context exists, clear the storage write-delay flag and finish the
pending write. -/
def exit_write_delay_state (s : DItem) : DItem × List WriteCall :=
  if s.has_persistent_object_context then
    finish_pending_write { s with write_delayed := false }
  else (s, [])

/-- `DataItem._enter_transaction_state` (lines 973-983), restricted to the
persistence state (the suspendable cache and the data-source ref counts are
modelled separately): set the transaction flag and enter the write-delay
state. -/
def enter_transaction_state (s : DItem) : DItem :=
  enter_write_delay_state { s with in_transaction_state := true }

/-- `DataItem._exit_transaction_state` (lines 985-995), restricted to the
persistence state: clear the transaction flag and exit the write-delay state,
flushing delayed writes. -/
def exit_transaction_state (s : DItem) : DItem × List WriteCall :=
  exit_write_delay_state { s with in_transaction_state := false }

/-- The modifications that can happen to a data item inside a transaction:
a metadata/property change (advancing the modification counter), or a data
change (which also sets `__write_delay_data_changed`, DataItem.py line 1232,
and advances the modification counter). -/
inductive TAction where
  | property_change
  | data_change
deriving DecidableEq, Repr

/-- Apply one in-transaction modification. -/
def apply_taction (s : DItem) : TAction → DItem
  | .property_change => { s with modified_count := s.modified_count + 1 }
  | .data_change =>
      { s with
        modified_count := s.modified_count + 1
        write_delay_data_changed := true }

/-- Apply a sequence of in-transaction modifications. -/
def apply_tactions (s : DItem) (acts : List TAction) : DItem :=
  acts.foldl apply_taction s

/-! ### BufferedDataSource: data reference counting -/

/-- Payload residency events: a load of the data from the persistent store, or
an unload from memory. -/
inductive RefEvent where
  | load
  | unload
deriving DecidableEq, Repr

/-- The data-reference state of a `BufferedDataSource`: its
`__data_ref_count`, whether `__data_and_metadata` is present, and whether the
payload data is currently resident in memory. -/
structure BufferedDataSource where
  data_ref_count : Nat
  has_data_and_metadata : Bool
  data_loaded : Bool
deriving DecidableEq, Repr

/-- `BufferedDataSource.increment_data_ref_count` (DataItem.py lines 545-551):
increment the count and, exactly when the pre-increment count was 0 and data
and metadata are present, have the data-and-metadata load its data (modelled
from the spec for the external `DataAndMetadata` collaborator: the payload is
loaded from the external store on that inner increment). -/
def increment_data_ref_count (s : BufferedDataSource) : BufferedDataSource × List RefEvent :=
  let initial_count := s.data_ref_count
  let s' := { s with data_ref_count := initial_count + 1 }
  if initial_count = 0 ∧ s.has_data_and_metadata then
    ({ s' with data_loaded := true }, [RefEvent.load])
  else (s', [])

/-- `BufferedDataSource.decrement_data_ref_count` (DataItem.py lines 553-560):
decrement the count (the source asserts it is positive) and, exactly when the
post-decrement count is 0 and data and metadata are present, have the
data-and-metadata unload its data from memory. -/
def decrement_data_ref_count (s : BufferedDataSource) : BufferedDataSource × List RefEvent :=
  let final_count := s.data_ref_count - 1
  let s' := { s with data_ref_count := final_count }
  if final_count = 0 ∧ s.has_data_and_metadata then
    ({ s' with data_loaded := false }, [RefEvent.unload])
  else (s', [])

/-! ### General list lemmas used by the settle-correctness proof -/

theorem take_eraseIdx_of_le {α : Type _} :
    ∀ (l : List α) (n i : Nat), i ≤ n → (l.eraseIdx n).take i = l.take i
  | [], _, _, _ => by simp
  | _ :: _, 0, i, h => by
    have hi : i = 0 := Nat.le_zero.mp h
    subst hi; simp
  | a :: l, n + 1, 0, _ => by simp
  | a :: l, n + 1, i + 1, h => by
    simp only [List.eraseIdx_cons_succ, List.take_succ_cons]
    rw [take_eraseIdx_of_le l n i (by omega)]

theorem insertIdx_take_succ {α : Type _} (a : α) :
    ∀ (i : Nat) (l : List α), i ≤ l.length →
      (l.insertIdx i a).take (i + 1) = l.take i ++ [a]
  | 0, l, _ => by simp
  | i + 1, [], h => by simp at h
  | i + 1, b :: l, h => by
    rw [List.insertIdx_succ_cons, List.take_succ_cons,
      insertIdx_take_succ a i l (by simpa using h)]
    rfl

theorem insertIdx_perm {α : Type _} (a : α) :
    ∀ (i : Nat) (l : List α), i ≤ l.length → (l.insertIdx i a).Perm (a :: l)
  | 0, l, _ => by simp
  | i + 1, [], h => by simp at h
  | i + 1, b :: l, h => by
    rw [List.insertIdx_succ_cons]
    exact ((insertIdx_perm a i l (by simpa using h)).cons b).trans (List.Perm.swap a b l)

theorem insertIdx_nodup {α : Type _} (a : α) (i : Nat) (l : List α)
    (hle : i ≤ l.length) (ha : a ∉ l) (hl : l.Nodup) : (l.insertIdx i a).Nodup :=
  (insertIdx_perm a i l hle).symm.nodup (List.nodup_cons.mpr ⟨ha, hl⟩)

theorem eraseIdx_split {α : Type _} (o : List α) (n : Nat) (hn : n < o.length) :
    o = o.take n ++ o[n] :: o.drop (n + 1) := by
  conv_lhs => rw [← List.take_append_drop n o]
  rw [List.drop_eq_getElem_cons hn]

theorem not_mem_eraseIdx_of_nodup {α : Type _} (o : List α) (n : Nat)
    (h : o.Nodup) (hn : n < o.length) : o[n] ∉ o.eraseIdx n := by
  rw [List.eraseIdx_eq_take_drop_succ]
  have h2 := h
  rw [eraseIdx_split o n hn, List.nodup_middle, List.nodup_cons] at h2
  exact h2.1

theorem not_mem_take_of_nodup {α : Type _} (d : List α) (i : Nat)
    (hd : d.Nodup) (hi : i < d.length) : d[i] ∉ d.take i := by
  intro hmem
  have h2 := hd
  rw [eraseIdx_split d i hi, List.nodup_middle, List.nodup_cons] at h2
  exact h2.1 (by simpa using Or.inl hmem)

theorem mem_take_of_getElem_lt {α : Type _} (o : List α) (k i : Nat)
    (hk : k < o.length) (hki : k < i) : o[k] ∈ o.take i := by
  have hlen : k < (o.take i).length := by
    rw [List.length_take]; omega
  have : (o.take i)[k] = o[k] := List.getElem_take o
  rw [← this]
  exact List.getElem_mem hlen

/-! ### The settle pass is correct: replaying its events transforms the old
authoritative list into the new target list -/

theorem staleStep_replay (d o : List Item) (i : Nat) :
    replayEvents o (staleStep d o i).2 = (staleStep d o i).1 := by
  unfold staleStep
  cases o[i]? with
  | none => rfl
  | some x =>
      by_cases hx : x ∉ d
      · simp [hx, replayEvents, applyEvent]
      · simp [hx, replayEvents]

theorem placeStep_replay (a : Item) (i : Nat) (o : List Item) :
    replayEvents o (placeStep a i o).2 = (placeStep a i o).1 := by
  unfold placeStep
  by_cases hmem : a ∈ o
  · by_cases hlt : i < o.indexOf a
    · simp [hmem, hlt, replayEvents, applyEvent]
    · simp [hmem, hlt, replayEvents]
  · simp [hmem, replayEvents, applyEvent]

theorem tailLoop_replay : ∀ (fuel i : Nat) (o : List Item),
    replayEvents o (tailLoop fuel i o).2 = (tailLoop fuel i o).1
  | 0, _, _ => rfl
  | fuel + 1, i, o => by
    unfold tailLoop
    cases ho : o[i]? with
    | none => rfl
    | some x =>
        simp only [replayEvents, List.foldl_cons]
        have : applyEvent o ⟨EOp.remove, x, i⟩ = o.eraseIdx i := rfl
        rw [this]
        exact tailLoop_replay fuel i (o.eraseIdx i)

theorem settleLoop_replay (d : List Item) :
    ∀ (rest : List Item) (i : Nat) (o : List Item),
      replayEvents o (settleLoop d rest i o).2 = (settleLoop d rest i o).1
  | [], i, o => tailLoop_replay (o.length - i) i o
  | item :: rest, i, o => by
    simp only [settleLoop, replayEvents, List.foldl_append]
    rw [show List.foldl applyEvent o (staleStep d o i).2
          = replayEvents o (staleStep d o i).2 from rfl,
      staleStep_replay d o i]
    rw [show List.foldl applyEvent (staleStep d o i).1 (placeStep item i (staleStep d o i).1).2
          = replayEvents (staleStep d o i).1 (placeStep item i (staleStep d o i).1).2 from rfl,
      placeStep_replay item i (staleStep d o i).1]
    exact settleLoop_replay d rest (i + 1) (placeStep item i (staleStep d o i).1).1

theorem tailLoop_fst : ∀ (fuel i : Nat) (o : List Item), o.length ≤ i + fuel →
    (tailLoop fuel i o).1 = o.take i
  | 0, i, o, h => by
    simp only [tailLoop]
    exact (List.take_of_length_le (by omega)).symm
  | fuel + 1, i, o, h => by
    simp only [tailLoop]
    cases ho : o[i]? with
    | none =>
        have : o.length ≤ i := List.getElem?_eq_none_iff.mp ho
        exact (List.take_of_length_le this).symm
    | some x =>
        have hi : i < o.length := (List.getElem?_eq_some.mp ho).1
        simp only
        rw [tailLoop_fst fuel i (o.eraseIdx i)
          (by rw [List.length_eraseIdx_of_lt hi]; omega)]
        exact take_eraseIdx_of_le o i i le_rfl

theorem tailCleanup_fst (i : Nat) (o : List Item) :
    (tailCleanup i o).1 = o.take i :=
  tailLoop_fst (o.length - i) i o (by omega)

theorem staleStep_inv (d o : List Item) (i : Nat) (hnd : o.Nodup)
    (hlen : i ≤ o.length) (htake : o.take i = d.take i) :
    (staleStep d o i).1.Nodup ∧ i ≤ (staleStep d o i).1.length ∧
      (staleStep d o i).1.take i = d.take i := by
  unfold staleStep
  cases ho : o[i]? with
  | none => exact ⟨hnd, hlen, htake⟩
  | some x =>
      dsimp only
      by_cases hx : x ∉ d
      · have hi : i < o.length := (List.getElem?_eq_some.mp ho).1
        rw [if_pos hx]
        dsimp only
        refine ⟨(List.eraseIdx_sublist o i).nodup hnd, ?_, ?_⟩
        · rw [List.length_eraseIdx_of_lt hi]; omega
        · rw [take_eraseIdx_of_le o i i le_rfl]; exact htake
      · rw [if_neg hx]
        dsimp only
        exact ⟨hnd, hlen, htake⟩

theorem placeStep_inv (d o : List Item) (i : Nat) (item : Item)
    (hnd : o.Nodup) (hd : d.Nodup) (hlen : i ≤ o.length)
    (htake : o.take i = d.take i) (hitem : d[i]? = some item) :
    (placeStep item i o).1.Nodup ∧ i + 1 ≤ (placeStep item i o).1.length ∧
      (placeStep item i o).1.take (i + 1) = d.take (i + 1) := by
  obtain ⟨hi, hdi⟩ := List.getElem?_eq_some.mp hitem
  have hdtake : d.take (i + 1) = d.take i ++ [item] := by
    rw [List.take_succ, hitem]; rfl
  have hnotintake : item ∉ o.take i := by
    rw [htake, ← hdi]
    exact not_mem_take_of_nodup d i hd hi
  unfold placeStep
  by_cases hmem : item ∈ o
  · have hoi : o.indexOf item < o.length := List.indexOf_lt_length.mpr hmem
    have hget : o[o.indexOf item] = item := List.getElem_indexOf hoi
    have hile : i ≤ o.indexOf item := by
      by_contra hcon
      push_neg at hcon
      exact hnotintake (hget ▸ mem_take_of_getElem_lt o (o.indexOf item) i hoi hcon)
    by_cases hlt : i < o.indexOf item
    · rw [if_pos hmem, if_pos hlt]
      dsimp only
      have herase_len : (o.eraseIdx (o.indexOf item)).length = o.length - 1 :=
        List.length_eraseIdx_of_lt hoi
      have hile' : i ≤ (o.eraseIdx (o.indexOf item)).length := by omega
      have herase_nd : (o.eraseIdx (o.indexOf item)).Nodup :=
        (List.eraseIdx_sublist o (o.indexOf item)).nodup hnd
      have hnotmem' : item ∉ o.eraseIdx (o.indexOf item) := by
        have h0 := not_mem_eraseIdx_of_nodup o (o.indexOf item) hnd hoi
        rwa [hget] at h0
      refine ⟨insertIdx_nodup item i _ hile' hnotmem' herase_nd, ?_, ?_⟩
      · rw [List.length_insertIdx i _ hile']; omega
      · rw [insertIdx_take_succ item i _ hile',
          take_eraseIdx_of_le o (o.indexOf item) i (le_of_lt hlt), htake, hdtake]
    · have heq : o.indexOf item = i := by omega
      rw [if_pos hmem, if_neg hlt]
      dsimp only
      have hoi' : i < o.length := heq ▸ hoi
      have hgeti : o[i] = item := by
        have h0 := hget
        simp only [heq] at h0
        exact h0
      refine ⟨hnd, by omega, ?_⟩
      rw [List.take_succ, htake, hdtake, List.getElem?_eq_getElem hoi', hgeti]
      rfl
  · rw [if_neg hmem]
    dsimp only
    refine ⟨insertIdx_nodup item i o hlen hmem hnd, ?_, ?_⟩
    · rw [List.length_insertIdx i o hlen]; omega
    · rw [insertIdx_take_succ item i o hlen, htake, hdtake]

theorem settleLoop_final (d : List Item) (hd : d.Nodup) :
    ∀ (rest : List Item) (i : Nat) (o : List Item), o.Nodup → i ≤ o.length →
      o.take i = d.take i → d.drop i = rest → (settleLoop d rest i o).1 = d
  | [], i, o, hnd, hlen, htake, hdrop => by
    have hdlen : d.length ≤ i := by
      by_contra hcon
      push_neg at hcon
      rw [List.drop_eq_getElem_cons hcon] at hdrop
      exact List.noConfusion hdrop
    simp only [settleLoop]
    rw [tailCleanup_fst, htake]
    exact List.take_of_length_le hdlen
  | item :: rest, i, o, hnd, hlen, htake, hdrop => by
    have hitem : d[i]? = some item := by
      rw [← List.head?_drop, hdrop]; rfl
    have hdrop' : d.drop (i + 1) = rest := by
      have h1 : d.drop (i + 1) = List.drop 1 (d.drop i) := by
        rw [List.drop_drop]
      rw [h1, hdrop]
      rfl
    obtain ⟨hnd1, hlen1, htake1⟩ := staleStep_inv d o i hnd hlen htake
    obtain ⟨hnd2, hlen2, htake2⟩ :=
      placeStep_inv d (staleStep d o i).1 i item hnd1 hd hlen1 htake1 hitem
    simp only [settleLoop]
    exact settleLoop_final d hd rest (i + 1) _ hnd2 hlen2 htake2 hdrop'


theorem update_data_items_fst (old new : List Item) (h1 : old.Nodup)
    (h2 : new.Nodup) : (update_data_items old new).1 = new :=
  settleLoop_final new h2 new 0 old h1 (Nat.zero_le _) (by simp) (by simp)

theorem update_data_items_replay (old new : List Item) :
    replayEvents old (update_data_items old new).2 = (update_data_items old new).1 :=
  settleLoop_replay new new 0 old


/-! ### Counter lemmas -/

theorem cfind_eq_none_of_not_mem_ckeys :
    ∀ (c : List (Item × Int)) (k : Item), k ∉ ckeys c → cfind c k = none
  | [], _, _ => rfl
  | p :: rest, k, h => by
    have h1 : p.1 ≠ k := by
      intro he
      exact h (by simp [ckeys, he])
    have h2 : k ∉ ckeys rest := by
      intro hm
      exact h (by simp [ckeys] at hm ⊢; exact Or.inr hm)
    simp only [cfind, if_neg h1]
    exact cfind_eq_none_of_not_mem_ckeys rest k h2

theorem cfind_some_exists_pair :
    ∀ (c : List (Item × Int)) (k : Item) (v : Int), cfind c k = some v →
      ∃ p, p ∈ c ∧ p.1 = k ∧ p.2 = v
  | [], _, _, h => by simp [cfind] at h
  | p :: rest, k, v, h => by
    by_cases hp : p.1 = k
    · simp only [cfind, if_pos hp] at h
      exact ⟨p, by simp, hp, Option.some_injective _ h⟩
    · simp only [cfind, if_neg hp] at h
      obtain ⟨q, hq1, hq2, hq3⟩ := cfind_some_exists_pair rest k v h
      exact ⟨q, by simp [hq1], hq2, hq3⟩

theorem mem_ckeys_set_add :
    ∀ (c : List (Item × Int)) (k : Item) (v : Int) (a : Item),
      a ∈ ckeys (counter_set_add c k v) ↔ a ∈ ckeys c ∨ a = k
  | [], k, v, a => by simp [counter_set_add, ckeys]
  | p :: rest, k, v, a => by
    by_cases hp : p.1 = k
    · simp only [counter_set_add, if_pos hp, ckeys, List.map_cons, List.mem_cons]
      constructor
      · rintro (h | h)
        · exact Or.inl (Or.inl h)
        · exact Or.inl (Or.inr h)
      · rintro ((h | h) | h)
        · exact Or.inl h
        · exact Or.inr h
        · exact Or.inl (hp.trans h.symm).symm
    · simp only [counter_set_add, if_neg hp, ckeys, List.map_cons, List.mem_cons]
      rw [show List.map Prod.fst (counter_set_add rest k v)
            = ckeys (counter_set_add rest k v) from rfl,
        mem_ckeys_set_add rest k v a]
      simp only [ckeys]
      tauto

theorem ckeys_nodup_set_add :
    ∀ (c : List (Item × Int)) (k : Item) (v : Int), (ckeys c).Nodup →
      (ckeys (counter_set_add c k v)).Nodup
  | [], k, v, _ => by simp [counter_set_add, ckeys]
  | p :: rest, k, v, h => by
    rw [show ckeys (p :: rest) = p.1 :: ckeys rest from rfl, List.nodup_cons] at h
    by_cases hp : p.1 = k
    · simp only [counter_set_add, if_pos hp]
      rw [show ckeys ((p.1, p.2 + v) :: rest) = p.1 :: ckeys rest from rfl,
        List.nodup_cons]
      exact h
    · simp only [counter_set_add, if_neg hp]
      rw [show ckeys (p :: counter_set_add rest k v)
            = p.1 :: ckeys (counter_set_add rest k v) from rfl, List.nodup_cons]
      refine ⟨?_, ckeys_nodup_set_add rest k v h.2⟩
      rw [mem_ckeys_set_add]
      rintro (hm | hm)
      · exact h.1 hm
      · exact hp hm

theorem cfind_set_add :
    ∀ (c : List (Item × Int)) (k : Item) (v : Int) (a : Item),
      cfind (counter_set_add c k v) a
        = if a = k then some ((cfind c k).getD 0 + v) else cfind c a
  | [], k, v, a => by
    by_cases ha : a = k
    · simp [counter_set_add, cfind, ha]
    · have hka : ¬k = a := fun h => ha h.symm
      simp [counter_set_add, cfind, ha, hka]
  | p :: rest, k, v, a => by
    by_cases hp : p.1 = k
    · by_cases ha : a = k
      · simp [counter_set_add, if_pos hp, cfind, hp.trans ha.symm, ha, hp]
      · have hpa : p.1 ≠ a := fun h => ha (h.symm.trans hp)
        simp [counter_set_add, if_pos hp, cfind, hpa, ha]
    · by_cases ha : a = k
      · have hpa : p.1 ≠ a := fun h => hp (h.trans ha)
        simp only [counter_set_add, if_neg hp, cfind, if_neg hpa, if_neg hp,
          cfind_set_add rest k v a, if_pos ha]
      · by_cases hpa : p.1 = a
        · simp [counter_set_add, if_neg hp, cfind, hpa, ha]
        · simp [counter_set_add, if_neg hp, cfind, hpa, ha,
            cfind_set_add rest k v a]

theorem cfind_fold_set_add (h : Int → Int) :
    ∀ (d c : List (Item × Int)) (k : Item), (ckeys d).Nodup →
      cfind (d.foldl (fun acc p => counter_set_add acc p.1 (h p.2)) c) k
        = match cfind d k with
          | some w => some ((cfind c k).getD 0 + h w)
          | none => cfind c k
  | [], c, k, _ => rfl
  | q :: d', c, k, hn => by
    rw [show ckeys (q :: d') = q.1 :: ckeys d' from rfl, List.nodup_cons] at hn
    rw [List.foldl_cons, cfind_fold_set_add h d' (counter_set_add c q.1 (h q.2)) k hn.2]
    by_cases hk : k = q.1
    · have hd' : cfind d' k = none :=
        cfind_eq_none_of_not_mem_ckeys d' k (by rw [hk]; exact hn.1)
      rw [hd']
      simp only [cfind, if_pos hk.symm]
      rw [cfind_set_add c q.1 (h q.2) k, if_pos hk, hk]
    · rw [cfind_set_add c q.1 (h q.2) k, if_neg hk]
      have hqk : ¬q.1 = k := fun he => hk he.symm
      simp only [cfind, if_neg hqk]

theorem cfind_counter_update (c d : List (Item × Int)) (k : Item)
    (hn : (ckeys d).Nodup) :
    cfind (counter_update c d) k
      = match cfind d k with
        | some w => some ((cfind c k).getD 0 + w)
        | none => cfind c k := by
  have h := cfind_fold_set_add (fun v => v) d c k hn
  exact h

theorem cfind_counter_subtract (c d : List (Item × Int)) (k : Item)
    (hn : (ckeys d).Nodup) :
    cfind (counter_subtract c d) k
      = match cfind d k with
        | some w => some ((cfind c k).getD 0 + -w)
        | none => cfind c k := by
  have h := cfind_fold_set_add (fun v => -v) d c k hn
  exact h

theorem ckeys_nodup_fold_set_add (h : Int → Int) :
    ∀ (d c : List (Item × Int)), (ckeys c).Nodup →
      (ckeys (d.foldl (fun acc p => counter_set_add acc p.1 (h p.2)) c)).Nodup
  | [], c, hc => hc
  | q :: d', c, hc => by
    rw [List.foldl_cons]
    exact ckeys_nodup_fold_set_add h d' _ (ckeys_nodup_set_add c q.1 (h q.2) hc)

theorem cfind_strip_pos :
    ∀ (c : List (Item × Int)) (k : Item) (v : Int),
      cfind (counter_strip c) k = some v → 0 < v
  | [], k, v, h => by simp [counter_strip, cfind] at h
  | p :: rest, k, v, h => by
    by_cases hp : 0 < p.2
    · rw [show counter_strip (p :: rest) = p :: counter_strip rest by
        simp [counter_strip, hp]] at h
      by_cases hpk : p.1 = k
      · simp only [cfind, if_pos hpk] at h
        rwa [← Option.some_injective _ h]
      · simp only [cfind, if_neg hpk] at h
        exact cfind_strip_pos rest k v h
    · rw [show counter_strip (p :: rest) = counter_strip rest by
        simp [counter_strip, hp]] at h
      exact cfind_strip_pos rest k v h

theorem mem_of_mem_counter_strip (c : List (Item × Int)) (p : Item × Int)
    (h : p ∈ counter_strip c) : p ∈ c :=
  (List.mem_filter.mp h).1

theorem cfind_counter_strip (c : List (Item × Int)) (k : Item)
    (hn : (ckeys c).Nodup) :
    cfind (counter_strip c) k
      = match cfind c k with
        | some v => if 0 < v then some v else none
        | none => none := by
  induction c with
  | nil => rfl
  | cons p rest ih =>
    rw [show ckeys (p :: rest) = p.1 :: ckeys rest from rfl, List.nodup_cons] at hn
    by_cases hpk : p.1 = k
    · simp only [cfind, if_pos hpk]
      by_cases hp : 0 < p.2
      · rw [show counter_strip (p :: rest) = p :: counter_strip rest by
          simp [counter_strip, hp]]
        simp [cfind, hpk, hp]
      · rw [show counter_strip (p :: rest) = counter_strip rest by
          simp [counter_strip, hp]]
        rw [if_neg hp]
        refine cfind_eq_none_of_not_mem_ckeys _ k ?_
        intro hm
        rw [← hpk] at hm
        refine hn.1 ?_
        simp only [ckeys, List.mem_map] at hm ⊢
        obtain ⟨q, hq1, hq2⟩ := hm
        exact ⟨q, mem_of_mem_counter_strip rest q hq1, hq2⟩
    · simp only [cfind, if_neg hpk]
      by_cases hp : 0 < p.2
      · rw [show counter_strip (p :: rest) = p :: counter_strip rest by
          simp [counter_strip, hp]]
        simp only [cfind, if_neg hpk]
        exact ih hn.2
      · rw [show counter_strip (p :: rest) = counter_strip rest by
          simp [counter_strip, hp]]
        exact ih hn.2

/-! ### Transaction-state lemmas -/

theorem apply_taction_fields (s : DItem) (a : TAction) :
    (apply_taction s a).pending_write = s.pending_write ∧
      (apply_taction s a).has_persistent_object_context
          = s.has_persistent_object_context ∧
      (apply_taction s a).write_delay_modified_count = s.write_delay_modified_count ∧
      (apply_taction s a).in_transaction_state = s.in_transaction_state ∧
      (apply_taction s a).write_delayed = s.write_delayed := by
  cases a <;> simp [apply_taction]

theorem apply_tactions_fields :
    ∀ (acts : List TAction) (s : DItem),
      (apply_tactions s acts).pending_write = s.pending_write ∧
        (apply_tactions s acts).has_persistent_object_context
            = s.has_persistent_object_context ∧
        (apply_tactions s acts).write_delay_modified_count
            = s.write_delay_modified_count ∧
        (apply_tactions s acts).in_transaction_state = s.in_transaction_state ∧
        (apply_tactions s acts).write_delayed = s.write_delayed
  | [], s => ⟨rfl, rfl, rfl, rfl, rfl⟩
  | a :: acts, s => by
    obtain ⟨a1, a2, a3, a4, a5⟩ := apply_taction_fields s a
    obtain ⟨b1, b2, b3, b4, b5⟩ := apply_tactions_fields acts (apply_taction s a)
    simp only [apply_tactions, List.foldl_cons] at b1 b2 b3 b4 b5 ⊢
    exact ⟨b1.trans a1, b2.trans a2, b3.trans a3, b4.trans a4, b5.trans a5⟩

theorem apply_tactions_modified :
    ∀ (acts : List TAction) (s : DItem),
      (apply_tactions s acts).modified_count = s.modified_count + acts.length
  | [], s => rfl
  | a :: acts, s => by
    have h2 := apply_tactions_modified acts (apply_taction s a)
    have h1 : (apply_taction s a).modified_count = s.modified_count + 1 := by
      cases a <;> simp [apply_taction]
    simp only [apply_tactions, List.foldl_cons] at h2 ⊢
    rw [h2, h1, List.length_cons]
    omega

theorem apply_tactions_data_changed_of_not_mem :
    ∀ (acts : List TAction) (s : DItem), TAction.data_change ∉ acts →
      (apply_tactions s acts).write_delay_data_changed = s.write_delay_data_changed
  | [], s, _ => rfl
  | a :: acts, s, h => by
    have ha : a = TAction.property_change := by
      cases a
      · rfl
      · exact absurd (by simp) h
    subst ha
    have h2 := apply_tactions_data_changed_of_not_mem acts
      (apply_taction s TAction.property_change) (fun hm => h (by simp [hm]))
    simp only [apply_tactions, List.foldl_cons] at h2 ⊢
    rw [h2]
    rfl

theorem apply_tactions_data_changed_of_mem :
    ∀ (acts : List TAction) (s : DItem), TAction.data_change ∈ acts →
      (apply_tactions s acts).write_delay_data_changed = true
  | [], _, h => absurd h (by simp)
  | a :: acts, s, h => by
    rcases Classical.em (TAction.data_change ∈ acts) with hm | hm
    · have h2 := apply_tactions_data_changed_of_mem acts (apply_taction s a) hm
      simp only [apply_tactions, List.foldl_cons] at h2 ⊢
      exact h2
    · have ha : a = TAction.data_change := by
        rcases List.mem_cons.mp h with h1 | h1
        · exact h1.symm
        · exact absurd h1 hm
      subst ha
      have h2 := apply_tactions_data_changed_of_not_mem acts
        (apply_taction s TAction.data_change) hm
      simp only [apply_tactions, List.foldl_cons] at h2 ⊢
      rw [h2]
      rfl

/-! ### Binding invariant lemmas -/

theorem binding_update_nodup (hm : Item → Bool) (dep : Item → List Item)
    (s : Binding) (h : s.data_items.Nodup) :
    (binding_update_data_items hm dep s).data_items.Nodup := by
  unfold binding_update_data_items
  by_cases h0 : 0 < s.change_level
  · rw [if_pos h0]; exact h
  · rw [if_neg h0]
    dsimp only
    by_cases hnd : (buildDataItems hm dep s.filt s.srt (ckeys s.counted_data_items)).Nodup
    · rw [if_pos hnd]
      dsimp only
      rw [update_data_items_fst _ _ h hnd]
      exact hnd
    · rw [if_neg hnd]
      exact h

theorem applyBOp_nodup (hm : Item → Bool) (dep : Item → List Item)
    (s : Binding) (op : BOp) (h : s.data_items.Nodup) :
    (applyBOp hm dep s op).data_items.Nodup := by
  cases op with
  | beginChange => exact h
  | endChange =>
      show (end_change hm dep s).data_items.Nodup
      unfold end_change
      by_cases h0 : ({ s with change_level := s.change_level - 1 } : Binding).change_level = 0
      · rw [if_pos h0]
        exact binding_update_nodup hm dep _ h
      · rw [if_neg h0]
        exact h
  | updateCounted d => exact binding_update_nodup hm dep _ h
  | subtractCounted d => exact binding_update_nodup hm dep _ h
  | setFilter f => exact binding_update_nodup hm dep _ h
  | setSort k => exact binding_update_nodup hm dep _ h

/-! ### Claims -/

/-- C1: for every duplicate-free previous authoritative list and duplicate-free
freshly computed target list, one settle pass emits a sequence of insert/remove
events whose left-to-right replay against the old list yields exactly the new
list, and the authoritative list — mutated in lockstep with each emitted event,
so that it always equals the replay of the events emitted so far — ends equal
to the new list. -/
theorem C1_settle_replay_correct (old new : List Item)
    (h1 : old.Nodup) (h2 : new.Nodup) :
    replayEvents old (update_data_items old new).2 = new ∧
      (update_data_items old new).1 = new := by
  have h := update_data_items_fst old new h1 h2
  exact ⟨by rw [update_data_items_replay, h], h⟩

theorem C1_witness :
    ([0, 1].Nodup ∧ [1, 2].Nodup) ∧
      replayEvents [0, 1] (update_data_items [0, 1] [1, 2]).2 = [1, 2] ∧
        (update_data_items [0, 1] [1, 2]).1 = [1, 2] :=
  ⟨⟨by decide, by decide⟩, C1_settle_replay_correct [0, 1] [1, 2] (by decide) (by decide)⟩

/-- C2: in every reachable state of a binding — after any sequence of
begin/end change scopes, counted-delta updates and subtractions, filter
changes and sort changes starting from the freshly constructed binding — the
authoritative list contains no item twice. -/
theorem C2_no_duplicate_invariant (hm : Item → Bool) (dep : Item → List Item)
    (ops : List BOp) : (runBinding hm dep ops).data_items.Nodup := by
  suffices h : ∀ (ops : List BOp) (s : Binding), s.data_items.Nodup →
      (ops.foldl (applyBOp hm dep) s).data_items.Nodup from
    h ops Binding.init (by simp [Binding.init])
  intro ops
  induction ops with
  | nil => intro s hs; exact hs
  | cons op ops ih =>
      intro s hs
      rw [List.foldl_cons]
      exact ih _ (applyBOp_nodup hm dep s op hs)

/-- C3 counterexample: for old list `[0,1,2]` and new list `[2]` (so the two
consecutive elements `0` and `1` at position 0 are both stale), the code does
not repeat the stale-removal step as a loop: it removes only `0` before placing
`2`, emitting `remove(0,0), remove(2,1), insert(2,0), remove(1,1)`, whereas the
spec's `while` wording would emit `remove(0,0), remove(1,0)`. -/
theorem C3_counterexample :
    (update_data_items [0, 1, 2] [2]).2
        = [⟨.remove, 0, 0⟩, ⟨.remove, 2, 1⟩, ⟨.insert, 2, 0⟩, ⟨.remove, 1, 1⟩] ∧
      (update_data_items_spec [0, 1, 2] [2]).2
          = [⟨.remove, 0, 0⟩, ⟨.remove, 1, 0⟩] ∧
      (update_data_items [0, 1, 2] [2]).2 ≠ (update_data_items_spec [0, 1, 2] [2]).2 := by
  decide

/-- C3 amended: at each index the settle pass removes at most one stale
element before placing the new item — the stale check of `_update_data_items`
is a single conditional executed once per index, not a loop.  In general the
stale phase emits at most one event; when the element at position `i` of the
remaining old list is absent from the new list it is removed, emitting exactly
`remove(o[i], i)`; and if the element that then shifts into position `i` is
also absent from the new list it is not removed at this point: it is still
sitting at position `i` when the new item is placed, the iteration
contributing exactly the single removal followed by the placement events.
Stale elements skipped this way are removed later, by the move step's removal
or by the tail cleanup, so the pass still ends with the authoritative list
equal to the new list. -/
theorem C3_stale_removal_single_conditional
    (d l : List Item) (j : Nat) (new o old newTarget : List Item) (i : Nat)
    (x y item : Item) (rest : List Item)
    (hx : o[i]? = some x) (hx' : x ∉ new)
    (hy : (o.eraseIdx i)[i]? = some y) (hy' : y ∉ new)
    (hold : old.Nodup) (hnewT : newTarget.Nodup) :
    (staleStep d l j).2.length ≤ 1 ∧
      staleStep new o i = (o.eraseIdx i, [⟨.remove, x, i⟩]) ∧
      ((staleStep new o i).1)[i]? = some y ∧
      settleLoop new (item :: rest) i o
        = ((settleLoop new rest (i + 1) (placeStep item i (o.eraseIdx i)).1).1,
            Event.mk .remove x i ::
              ((placeStep item i (o.eraseIdx i)).2
                ++ (settleLoop new rest (i + 1) (placeStep item i (o.eraseIdx i)).1).2)) ∧
      (update_data_items old newTarget).1 = newTarget := by
  have h1 : staleStep new o i = (o.eraseIdx i, [⟨.remove, x, i⟩]) := by
    unfold staleStep
    rw [hx]
    dsimp only
    rw [if_pos hx']
  refine ⟨?_, h1, ?_, ?_, update_data_items_fst old newTarget hold hnewT⟩
  · unfold staleStep
    cases l[j]? with
    | none => simp
    | some z =>
        dsimp only
        split_ifs <;> simp
  · rw [h1]
    exact hy
  · simp only [settleLoop, h1]
    rw [List.append_assoc, List.singleton_append]

theorem C3_stale_removal_single_conditional_witness :
    ((([0, 1, 2] : List Item)[0]? = some 0 ∧ (0 : Item) ∉ ([2] : List Item) ∧
        (([0, 1, 2] : List Item).eraseIdx 0)[0]? = some 1 ∧
        (1 : Item) ∉ ([2] : List Item) ∧
        ([0, 1, 2] : List Item).Nodup ∧ ([2] : List Item).Nodup) ∧
      (staleStep [2] [0, 1, 2] 0).2.length ≤ 1 ∧
        staleStep [2] [0, 1, 2] 0
            = (([0, 1, 2] : List Item).eraseIdx 0, [⟨.remove, 0, 0⟩]) ∧
        ((staleStep [2] [0, 1, 2] 0).1)[0]? = some 1 ∧
        settleLoop [2] [2] 0 [0, 1, 2]
            = ((settleLoop [2] [] 1
                  (placeStep 2 0 (([0, 1, 2] : List Item).eraseIdx 0)).1).1,
                Event.mk .remove 0 0 ::
                  ((placeStep 2 0 (([0, 1, 2] : List Item).eraseIdx 0)).2
                    ++ (settleLoop [2] [] 1
                        (placeStep 2 0 (([0, 1, 2] : List Item).eraseIdx 0)).1).2)) ∧
        (update_data_items [0, 1, 2] [2]).1 = [2]) :=
  ⟨⟨by decide, by decide, by decide, by decide, by decide, by decide⟩,
    C3_stale_removal_single_conditional [2] [0, 1, 2] 0 [2] [0, 1, 2] [0, 1, 2] [2] 0
      0 1 2 [] (by decide) (by decide) (by decide) (by decide) (by decide) (by decide)⟩

/-- C4 counterexample: for old list `[A,B,C] = [0,1,2]` and new target list
`[B,A,C] = [1,0,2]`, the settle pass does not emit `remove(A,0), insert(A,1)`:
the moved item is `B`, via `remove(B,1), insert(B,0)`. -/
theorem C4_counterexample :
    (update_data_items [0, 1, 2] [1, 0, 2]).2
      ≠ [⟨.remove, 0, 0⟩, ⟨.insert, 0, 1⟩] := by
  decide

/-- C4 amended: for old authoritative list `[A,B,C] = [0,1,2]` and new target
list `[B,A,C] = [1,0,2]` — produced by a sort change whose key orders `B`
before `A` before `C` — the settle pass emits exactly the two events
`remove(B,1)` then `insert(B,0)`, the resulting authoritative list is
`[B,A,C]`, and no event mentions `C` (indeed none mentions `A` either: the
item moved by remove-then-reinsert is `B`, the one that must arrive at the
earlier position). -/
theorem C4_move_emits_remove_insert_of_B :
    buildDataItems (fun _ => true) (fun _ => [])
        none (some (fun x => if x = 1 then 0 else if x = 0 then 1 else 2, false))
        [0, 1, 2] = [1, 0, 2] ∧
      update_data_items [0, 1, 2] [1, 0, 2]
          = ([1, 0, 2], [⟨.remove, 1, 1⟩, ⟨.insert, 1, 0⟩]) ∧
      ∀ e ∈ (update_data_items [0, 1, 2] [1, 0, 2]).2, e.item ≠ 2 := by
  refine ⟨by decide, by decide, ?_⟩
  decide

theorem binding_update_skip (hm : Item → Bool) (dep : Item → List Item)
    (s : Binding) (h : 0 < s.change_level) :
    binding_update_data_items hm dep s = s := by
  unfold binding_update_data_items
  rw [if_pos h]

theorem binding_update_level (hm : Item → Bool) (dep : Item → List Item)
    (s : Binding) :
    (binding_update_data_items hm dep s).change_level = s.change_level := by
  unfold binding_update_data_items
  by_cases h : 0 < s.change_level
  · rw [if_pos h]
  · rw [if_neg h]
    dsimp only
    split_ifs <;> rfl

theorem binding_update_settle_count (hm : Item → Bool) (dep : Item → List Item)
    (s : Binding) (h : ¬0 < s.change_level) :
    (binding_update_data_items hm dep s).settle_count = s.settle_count + 1 := by
  unfold binding_update_data_items
  rw [if_neg h]
  dsimp only
  split_ifs <;> rfl

theorem binding_update_counted_pos_fields (hm : Item → Bool) (dep : Item → List Item)
    (d : List (Item × Int)) (s : Binding) (h : 0 < s.change_level) :
    (binding_update_counted hm dep d s).change_level = s.change_level ∧
      (binding_update_counted hm dep d s).settle_count = s.settle_count := by
  unfold binding_update_counted
  rw [binding_update_skip hm dep
    { s with counted_data_items := update_counted_data_items s.counted_data_items d } h]
  exact ⟨rfl, rfl⟩

/-- C5: `begin_change` increments the change level without settling,
`end_change` decrements it and runs the recompute exactly once when the level
reaches zero (and not otherwise); consequently three counted deltas delivered
inside one `changes()` scope trigger exactly one recompute, not three. -/
theorem C5_change_batching (hm : Item → Bool) (dep : Item → List Item)
    (s t : Binding) (d1 d2 d3 : List (Item × Int))
    (h0 : s.change_level = 0) (h1 : t.change_level = 1) :
    (begin_change s).change_level = s.change_level + 1 ∧
      (begin_change s).settle_count = s.settle_count ∧
      (end_change hm dep t).change_level = t.change_level - 1 ∧
      (end_change hm dep t).settle_count = t.settle_count + 1 ∧
      (end_change hm dep (binding_update_counted hm dep d3
          (binding_update_counted hm dep d2 (binding_update_counted hm dep d1
            (begin_change s))))).settle_count = s.settle_count + 1 := by
  have hec : ∀ u : Binding, u.change_level = 1 →
      (end_change hm dep u).change_level = u.change_level - 1 ∧
        (end_change hm dep u).settle_count = u.settle_count + 1 := by
    intro u hu
    have hz' : ({ u with change_level := u.change_level - 1 } : Binding).change_level = 0 := by
      show u.change_level - 1 = 0
      rw [hu]
      rfl
    unfold end_change
    rw [if_pos hz']
    constructor
    · rw [binding_update_level]
    · exact binding_update_settle_count hm dep _ (by rw [hz']; omega)
  have hbl : (begin_change s).change_level = 1 := by
    show s.change_level + 1 = 1
    omega
  have f1 := binding_update_counted_pos_fields hm dep d1 (begin_change s)
    (by rw [hbl]; omega)
  have hl1 : (binding_update_counted hm dep d1 (begin_change s)).change_level = 1 :=
    f1.1.trans hbl
  have f2 := binding_update_counted_pos_fields hm dep d2
    (binding_update_counted hm dep d1 (begin_change s)) (by rw [hl1]; omega)
  have hl2 : (binding_update_counted hm dep d2
      (binding_update_counted hm dep d1 (begin_change s))).change_level = 1 :=
    f2.1.trans hl1
  have f3 := binding_update_counted_pos_fields hm dep d3
    (binding_update_counted hm dep d2 (binding_update_counted hm dep d1 (begin_change s)))
    (by rw [hl2]; omega)
  have hl3 : (binding_update_counted hm dep d3 (binding_update_counted hm dep d2
      (binding_update_counted hm dep d1 (begin_change s)))).change_level = 1 :=
    f3.1.trans hl2
  refine ⟨rfl, rfl, (hec t h1).1, (hec t h1).2, ?_⟩
  rw [(hec _ hl3).2, f3.2, f2.2, f1.2]
  rfl

theorem exit_transaction_writes (s2 : DItem)
    (hctx : s2.has_persistent_object_context = true)
    (hpend : s2.pending_write = false) :
    exit_transaction_state s2
      = ({ s2 with in_transaction_state := false, write_delayed := false },
          (if s2.write_delay_modified_count < s2.modified_count
             then [WriteCall.rewrite_data_item_properties] else [])
            ++ (if s2.write_delay_data_changed
                  then [WriteCall.rewrite_data_item_data] else [])) := by
  unfold exit_transaction_state exit_write_delay_state finish_pending_write
  dsimp only
  rw [if_pos hctx, if_neg (by rw [hpend]; exact Bool.false_ne_true)]

theorem exit_transaction_writes_pending (s2 : DItem)
    (hctx : s2.has_persistent_object_context = true)
    (hpend : s2.pending_write = true) :
    exit_transaction_state s2
      = ({ s2 with
            in_transaction_state := false
            write_delayed := false
            pending_write := false },
          [WriteCall.write_data_item]) := by
  unfold exit_transaction_state exit_write_delay_state finish_pending_write
  dsimp only
  rw [if_pos hctx, if_pos hpend]

/-- C6 counterexample: for a freshly constructed data item that has never been
written (pending write set), ten property changes inside one transaction yield
a single full `write_data_item` call at transaction exit and no property
rewrite at all, even though the modification counter advanced — refuting the
claim's "a property rewrite is issued if and only if the modification counter
advanced". -/
theorem C6_counterexample :
    (exit_transaction_state (apply_tactions
        (enter_transaction_state { DItem.init with has_persistent_object_context := true })
        (List.replicate 10 TAction.property_change))).2
      = [WriteCall.write_data_item] ∧
      (apply_tactions
          (enter_transaction_state { DItem.init with has_persistent_object_context := true })
          (List.replicate 10 TAction.property_change)).write_delay_modified_count
        < (apply_tactions
            (enter_transaction_state { DItem.init with has_persistent_object_context := true })
            (List.replicate 10 TAction.property_change)).modified_count ∧
      WriteCall.rewrite_data_item_properties ∉
        (exit_transaction_state (apply_tactions
            (enter_transaction_state { DItem.init with has_persistent_object_context := true })
            (List.replicate 10 TAction.property_change))).2 := by
  decide

/-- C6 amended: for a data item that has already been persisted (no pending
full write), exiting the transaction state flushes the delayed writes exactly
once: a property rewrite is issued exactly once if the modification counter
advanced past its value recorded at write-delay entry and not at all
otherwise, a data rewrite is issued exactly once if data changed during the
transaction and not at all otherwise, no full write is issued, and in
particular ten property changes inside one transaction produce exactly the one
property-rewrite call at transaction exit. -/
theorem C6_transaction_write_coalescing (s : DItem) (acts : List TAction)
    (hctx : s.has_persistent_object_context = true)
    (hpw : s.pending_write = false) :
    ((exit_transaction_state (apply_tactions (enter_transaction_state s) acts)).2.count
        WriteCall.rewrite_data_item_properties
      = if s.modified_count
            < (apply_tactions (enter_transaction_state s) acts).modified_count
          then 1 else 0) ∧
      ((exit_transaction_state (apply_tactions (enter_transaction_state s) acts)).2.count
          WriteCall.rewrite_data_item_data
        = if TAction.data_change ∈ acts then 1 else 0) ∧
      ((exit_transaction_state (apply_tactions (enter_transaction_state s) acts)).2.count
          WriteCall.write_data_item = 0) ∧
      (acts = List.replicate 10 TAction.property_change →
        (exit_transaction_state (apply_tactions (enter_transaction_state s) acts)).2
          = [WriteCall.rewrite_data_item_properties]) := by
  obtain ⟨hf1, hf2, hf3, -, -⟩ := apply_tactions_fields acts (enter_transaction_state s)
  have hpend2 : (apply_tactions (enter_transaction_state s) acts).pending_write = false :=
    hf1.trans hpw
  have hctx2 : (apply_tactions (enter_transaction_state s) acts).has_persistent_object_context
      = true := hf2.trans hctx
  have hwdmc : (apply_tactions (enter_transaction_state s) acts).write_delay_modified_count
      = s.modified_count := hf3
  have hwrites := exit_transaction_writes _ hctx2 hpend2
  rw [hwrites]
  dsimp only
  rw [hwdmc]
  have hflag : (apply_tactions (enter_transaction_state s) acts).write_delay_data_changed
      = true ↔ TAction.data_change ∈ acts := by
    constructor
    · intro hfl
      by_contra hmem
      have := apply_tactions_data_changed_of_not_mem acts (enter_transaction_state s) hmem
      rw [this] at hfl
      exact Bool.false_ne_true hfl
    · intro hmem
      exact apply_tactions_data_changed_of_mem acts (enter_transaction_state s) hmem
  refine ⟨?_, ?_, ?_, ?_⟩
  · by_cases hA : s.modified_count
        < (apply_tactions (enter_transaction_state s) acts).modified_count <;>
      by_cases hB : (apply_tactions (enter_transaction_state s) acts).write_delay_data_changed
          = true <;>
      simp [hA, hB]
  · by_cases hB : TAction.data_change ∈ acts
    · rw [if_pos hB, if_pos (hflag.mpr hB)]
      by_cases hA : s.modified_count
          < (apply_tactions (enter_transaction_state s) acts).modified_count <;>
        simp [hA]
    · rw [if_neg hB, if_neg (fun hfl => hB (hflag.mp hfl))]
      by_cases hA : s.modified_count
          < (apply_tactions (enter_transaction_state s) acts).modified_count <;>
        simp [hA]
  · by_cases hA : s.modified_count
        < (apply_tactions (enter_transaction_state s) acts).modified_count <;>
      by_cases hB : (apply_tactions (enter_transaction_state s) acts).write_delay_data_changed
          = true <;>
      simp [hA, hB]
  · intro hacts
    have hmem : TAction.data_change ∉ acts := by
      rw [hacts]
      intro hm
      rcases List.eq_of_mem_replicate hm with h
      exact TAction.noConfusion h
    have hlen : (apply_tactions (enter_transaction_state s) acts).modified_count
        = s.modified_count + acts.length := apply_tactions_modified acts _
    have hA : s.modified_count
        < (apply_tactions (enter_transaction_state s) acts).modified_count := by
      rw [hlen, hacts]
      simp
    rw [if_pos hA, if_neg (fun hfl => hmem (hflag.mp hfl))]
    rfl

theorem C6_witness :
    (({ DItem.init with
          pending_write := false
          has_persistent_object_context := true } : DItem).has_persistent_object_context
        = true ∧
      ({ DItem.init with
          pending_write := false
          has_persistent_object_context := true } : DItem).pending_write = false) ∧
      (exit_transaction_state (apply_tactions (enter_transaction_state
          { DItem.init with
            pending_write := false
            has_persistent_object_context := true })
          (List.replicate 10 TAction.property_change))).2
        = [WriteCall.rewrite_data_item_properties] :=
  ⟨⟨rfl, rfl⟩,
    (C6_transaction_write_coalescing
        { DItem.init with
          pending_write := false
          has_persistent_object_context := true }
        (List.replicate 10 TAction.property_change) rfl rfl).2.2.2 rfl⟩

/-- C10: for a data item that has never been written to persistent storage
(the pending-write flag is set at construction and cleared only by a write or
by `read_from_dict`), the first exit of the write-delay state issues exactly
one full `write_data_item` call and no rewrite calls, regardless of how far
the modification counter advanced during the transaction; and any later
write-delay exit takes only the conditional rewrite path, never the full
write. -/
theorem C10_first_write_then_rewrites (s : DItem) (acts acts2 : List TAction)
    (hctx : s.has_persistent_object_context = true)
    (hpw : s.pending_write = true) :
    DItem.init.pending_write = true ∧
      (read_from_dict s).pending_write = false ∧
      (exit_transaction_state (apply_tactions (enter_transaction_state s) acts)).2
          = [WriteCall.write_data_item] ∧
      (exit_transaction_state (apply_tactions (enter_transaction_state s) acts)).1.pending_write
          = false ∧
      WriteCall.write_data_item ∉
        (exit_transaction_state (apply_tactions (enter_transaction_state
            (exit_transaction_state (apply_tactions (enter_transaction_state s) acts)).1)
          acts2)).2 := by
  obtain ⟨hf1, hf2, -, -, -⟩ := apply_tactions_fields acts (enter_transaction_state s)
  have hpend2 : (apply_tactions (enter_transaction_state s) acts).pending_write = true :=
    hf1.trans hpw
  have hctx2 : (apply_tactions (enter_transaction_state s) acts).has_persistent_object_context
      = true := hf2.trans hctx
  have hexit := exit_transaction_writes_pending _ hctx2 hpend2
  rw [hexit]
  refine ⟨rfl, rfl, rfl, rfl, ?_⟩
  obtain ⟨hg1, hg2, -, -, -⟩ := apply_tactions_fields acts2 (enter_transaction_state
    ({ apply_tactions (enter_transaction_state s) acts with
        in_transaction_state := false
        write_delayed := false
        pending_write := false } : DItem))
  have hpend3 : (apply_tactions (enter_transaction_state
      ({ apply_tactions (enter_transaction_state s) acts with
          in_transaction_state := false
          write_delayed := false
          pending_write := false } : DItem)) acts2).pending_write = false := hg1
  have hctx3 : (apply_tactions (enter_transaction_state
      ({ apply_tactions (enter_transaction_state s) acts with
          in_transaction_state := false
          write_delayed := false
          pending_write := false } : DItem)) acts2).has_persistent_object_context
      = true := hg2.trans hctx2
  rw [exit_transaction_writes _ hctx3 hpend3]
  dsimp only
  by_cases hA : (apply_tactions (enter_transaction_state
        ({ apply_tactions (enter_transaction_state s) acts with
            in_transaction_state := false
            write_delayed := false
            pending_write := false } : DItem)) acts2).write_delay_modified_count
      < (apply_tactions (enter_transaction_state
        ({ apply_tactions (enter_transaction_state s) acts with
            in_transaction_state := false
            write_delayed := false
            pending_write := false } : DItem)) acts2).modified_count <;>
    by_cases hB : (apply_tactions (enter_transaction_state
        ({ apply_tactions (enter_transaction_state s) acts with
            in_transaction_state := false
            write_delayed := false
            pending_write := false } : DItem)) acts2).write_delay_data_changed
        = true <;>
    simp [hA, hB]

theorem C10_witness :
    (({ DItem.init with has_persistent_object_context := true } : DItem).has_persistent_object_context
          = true ∧
        ({ DItem.init with has_persistent_object_context := true } : DItem).pending_write = true) ∧
      (exit_transaction_state (apply_tactions (enter_transaction_state
          { DItem.init with has_persistent_object_context := true })
          [TAction.property_change])).2 = [WriteCall.write_data_item] :=
  ⟨⟨rfl, rfl⟩,
    (C10_first_write_then_rewrites
        { DItem.init with has_persistent_object_context := true }
        [TAction.property_change] [] rfl rfl).2.2.1⟩

/-- C7: starting from ref count 0 with data and metadata present, three
`increment_data_ref_count` calls followed by two `decrement_data_ref_count`
calls leave the payload resident (count 1, data loaded), the third decrement
brings the count to 0 and unloads the payload; the load from the external
store happens exactly on the 0-to-1 increment and never on a later increment;
and when a transaction holds an internal acquire (one extra increment, as
`_enter_transaction_state` performs on every data source), the same three
acquires and three releases leave the payload resident with count 1 and no
unload. -/
theorem C7_ref_count_gating (s : BufferedDataSource) (h : 0 < s.data_ref_count) :
    (increment_data_ref_count s).2 = [] ∧
      (increment_data_ref_count ⟨0, true, false⟩).2 = [RefEvent.load] ∧
      ((decrement_data_ref_count (decrement_data_ref_count
          (increment_data_ref_count (increment_data_ref_count
            (increment_data_ref_count ⟨0, true, false⟩).1).1).1).1).1.data_ref_count = 1 ∧
        (decrement_data_ref_count (decrement_data_ref_count
          (increment_data_ref_count (increment_data_ref_count
            (increment_data_ref_count ⟨0, true, false⟩).1).1).1).1).1.data_loaded = true ∧
        (decrement_data_ref_count (decrement_data_ref_count
          (increment_data_ref_count (increment_data_ref_count
            (increment_data_ref_count ⟨0, true, false⟩).1).1).1).1).2 = [] ∧
        decrement_data_ref_count (decrement_data_ref_count (decrement_data_ref_count
          (increment_data_ref_count (increment_data_ref_count
            (increment_data_ref_count ⟨0, true, false⟩).1).1).1).1).1
          = (⟨0, true, false⟩, [RefEvent.unload])) ∧
      ((decrement_data_ref_count (decrement_data_ref_count (decrement_data_ref_count
          (increment_data_ref_count (increment_data_ref_count (increment_data_ref_count
            (increment_data_ref_count ⟨0, true, false⟩).1).1).1).1).1).1).1.data_ref_count = 1 ∧
        (decrement_data_ref_count (decrement_data_ref_count (decrement_data_ref_count
          (increment_data_ref_count (increment_data_ref_count (increment_data_ref_count
            (increment_data_ref_count ⟨0, true, false⟩).1).1).1).1).1).1).1.data_loaded = true ∧
        (decrement_data_ref_count (decrement_data_ref_count (decrement_data_ref_count
          (increment_data_ref_count (increment_data_ref_count (increment_data_ref_count
            (increment_data_ref_count ⟨0, true, false⟩).1).1).1).1).1).1).2 = []) := by
  refine ⟨?_, by decide, by decide, by decide⟩
  unfold increment_data_ref_count
  dsimp only
  rw [if_neg ?_]
  intro hc
  omega

theorem C7_witness :
    0 < (1 : Nat) ∧
      (increment_data_ref_count ⟨1, true, true⟩).2 = [] :=
  ⟨by decide, (C7_ref_count_gating ⟨1, true, true⟩ (by decide)).1⟩

theorem counter_set_add_of_not_mem :
    ∀ (c : List (Item × Int)) (k : Item) (v : Int), k ∉ ckeys c →
      counter_set_add c k v = c ++ [(k, v)]
  | [], _, _, _ => rfl
  | p :: rest, k, v, h => by
    have hp : p.1 ≠ k := by
      intro he
      exact h (by simp [ckeys, he])
    have hr : k ∉ ckeys rest := by
      intro hm
      refine h ?_
      simp only [ckeys, List.map_cons, List.mem_cons]
      exact Or.inr hm
    simp only [counter_set_add, if_neg hp]
    rw [counter_set_add_of_not_mem rest k v hr]
    rfl

theorem counter_set_add_append :
    ∀ (c : List (Item × Int)) (k : Item) (w v : Int), k ∉ ckeys c →
      counter_set_add (c ++ [(k, w)]) k v = c ++ [(k, w + v)]
  | [], k, w, v, _ => by simp [counter_set_add]
  | p :: rest, k, w, v, h => by
    have hp : p.1 ≠ k := by
      intro he
      exact h (by simp [ckeys, he])
    have hr : k ∉ ckeys rest := by
      intro hm
      refine h ?_
      simp only [ckeys, List.map_cons, List.mem_cons]
      exact Or.inr hm
    simp only [List.cons_append, counter_set_add, if_neg hp, List.append_eq]
    rw [counter_set_add_append rest k w v hr]

theorem not_mem_ckeys_of_cfind_none :
    ∀ (c : List (Item × Int)) (x : Item), cfind c x = none → x ∉ ckeys c
  | [], _, _ => by simp [ckeys]
  | p :: rest, x, h => by
    by_cases hp : p.1 = x
    · simp [cfind, if_pos hp] at h
    · simp only [cfind, if_neg hp] at h
      intro hm
      simp only [ckeys, List.map_cons, List.mem_cons] at hm
      rcases hm with hm | hm
      · exact hp hm.symm
      · exact not_mem_ckeys_of_cfind_none rest x h hm

theorem not_mem_ckeys_counter_strip (c : List (Item × Int)) (x : Item)
    (h : x ∉ ckeys c) : x ∉ ckeys (counter_strip c) := by
  intro hm
  refine h ?_
  simp only [ckeys, List.mem_map] at hm ⊢
  obtain ⟨q, hq1, hq2⟩ := hm
  exact ⟨q, mem_of_mem_counter_strip c q hq1, hq2⟩

/-- C8: after any subtract operation on the counted aggregate no entry with a
count of zero or below remains in the mapping; and in particular adding
`{x: 1}` to an aggregate containing no entry for `x` and then subtracting
`{x: 1}` leaves the aggregate with no entry for `x` at all, not an entry with
value 0. -/
theorem C8_subtract_strips_empty_entries :
    (∀ (c d : List (Item × Int)) (k : Item) (v : Int),
        cfind (subtract_counted_data_items c d) k = some v → 0 < v) ∧
      ∀ (c : List (Item × Int)) (x : Item), cfind c x = none →
        cfind (subtract_counted_data_items
          (update_counted_data_items c [(x, 1)]) [(x, 1)]) x = none := by
  constructor
  · intro c d k v h
    exact cfind_strip_pos (counter_subtract c d) k v h
  · intro c x h
    have hnm : x ∉ ckeys c := not_mem_ckeys_of_cfind_none c x h
    have h1 : update_counted_data_items c [(x, 1)] = c ++ [(x, 1)] := by
      show counter_set_add c x 1 = c ++ [(x, 1)]
      exact counter_set_add_of_not_mem c x 1 hnm
    have h2 : counter_subtract (c ++ [(x, 1)]) [(x, 1)] = c ++ [(x, 0)] := by
      show counter_set_add (c ++ [(x, 1)]) x (-1) = c ++ [(x, 0)]
      rw [counter_set_add_append c x 1 (-1) hnm]
      norm_num
    show cfind (counter_strip (counter_subtract (update_counted_data_items c [(x, 1)]) [(x, 1)])) x = none
    rw [h1, h2]
    have h3 : counter_strip (c ++ [(x, 0)]) = counter_strip c := by
      show (c ++ [(x, 0)]).filter (fun p => 0 < p.2) = counter_strip c
      rw [List.filter_append]
      simp [counter_strip]
    rw [h3]
    exact cfind_eq_none_of_not_mem_ckeys _ x (not_mem_ckeys_counter_strip c x hnm)

theorem C8_witness :
    (0 < (2 : Int) ∧ cfind [(5, 2)] 0 = none) ∧
      cfind (subtract_counted_data_items
        (update_counted_data_items [(5, 2)] [(0, 1)]) [(0, 1)]) 0 = none :=
  ⟨⟨C8_subtract_strips_empty_entries.1 [(0, 3)] [(0, 1)] 0 2 (by decide), by decide⟩,
    C8_subtract_strips_empty_entries.2 [(5, 2)] 0 (by decide)⟩

/-- C9 counterexample: on the aggregate `{0: 1}`, subtracting `{0: 2}` (which
clamps the entry away) and then adding `{0: 2}` yields count 2 for key 0,
while adding first and then subtracting yields count 1 — so add and subtract
do not commute in general. -/
theorem C9_counterexample :
    cfind (update_counted_data_items
        (subtract_counted_data_items [(0, 1)] [(0, 2)]) [(0, 2)]) 0
      ≠ cfind (subtract_counted_data_items
          (update_counted_data_items [(0, 1)] [(0, 2)]) [(0, 2)]) 0 := by
  decide

/-- C9 amended: add and subtract on the counted aggregate commute as mapping
transformations provided no clamping occurs, i.e. on a well-formed aggregate
(distinct keys, strictly positive counts) and for deltas with distinct keys,
the added delta's counts strictly positive, and every subtracted count bounded
by the aggregate's current count for its key, subtracting then adding gives
the same mapping (the same count at every key) as adding then subtracting. -/
theorem C9_add_subtract_commute_without_clamping (c d1 d2 : List (Item × Int))
    (k : Item) (hc : (ckeys c).Nodup) (hcpos : ∀ p ∈ c, 0 < p.2)
    (h1 : (ckeys d1).Nodup) (h2 : (ckeys d2).Nodup)
    (h2pos : ∀ p ∈ d2, 0 < p.2)
    (hclamp : ∀ p ∈ d1, p.2 ≤ (cfind c p.1).getD 0) :
    cfind (update_counted_data_items (subtract_counted_data_items c d1) d2) k
      = cfind (subtract_counted_data_items (update_counted_data_items c d2) d1) k := by
  have hsubkeys : (ckeys (counter_subtract c d1)).Nodup :=
    ckeys_nodup_fold_set_add (fun v => -v) d1 c hc
  have hupdkeys : (ckeys (counter_update c d2)).Nodup :=
    ckeys_nodup_fold_set_add (fun v => v) d2 c hc
  have hsubupdkeys : (ckeys (counter_subtract (counter_update c d2) d1)).Nodup :=
    ckeys_nodup_fold_set_add (fun v => -v) d1 (counter_update c d2) hupdkeys
  have hga : ∀ a : Int, cfind c k = some a → 0 < a := by
    intro a hck
    obtain ⟨p, hp, hpk, hpv⟩ := cfind_some_exists_pair c k a hck
    exact hpv ▸ hcpos p hp
  have hgw2 : ∀ w2 : Int, cfind d2 k = some w2 → 0 < w2 := by
    intro w2 hd2
    obtain ⟨p, hp, hpk, hpv⟩ := cfind_some_exists_pair d2 k w2 hd2
    exact hpv ▸ h2pos p hp
  have hgw1 : ∀ w1 : Int, cfind d1 k = some w1 → w1 ≤ (cfind c k).getD 0 := by
    intro w1 hd1
    obtain ⟨p, hp, hpk, hpv⟩ := cfind_some_exists_pair d1 k w1 hd1
    have := hclamp p hp
    rw [hpk, hpv] at this
    exact this
  show cfind (counter_update (counter_strip (counter_subtract c d1)) d2) k
      = cfind (counter_strip (counter_subtract (counter_update c d2) d1)) k
  rw [cfind_counter_update _ d2 k h2,
    cfind_counter_strip (counter_subtract c d1) k hsubkeys,
    cfind_counter_subtract c d1 k h1,
    cfind_counter_strip (counter_subtract (counter_update c d2) d1) k hsubupdkeys,
    cfind_counter_subtract (counter_update c d2) d1 k h1,
    cfind_counter_update c d2 k h2]
  cases hd1 : cfind d1 k with
  | none =>
    cases hd2 : cfind d2 k with
    | none =>
      cases hck : cfind c k with
      | none => rfl
      | some a => rfl
    | some w2 =>
      have hw2' : 0 < w2 := hgw2 w2 hd2
      cases hck : cfind c k with
      | none =>
        dsimp only
        try simp only [Option.getD_none, Option.getD_some]
        split_ifs <;> try simp only [Option.getD_none, Option.getD_some] at *
        all_goals first
          | rfl
          | omega
          | (congr 1; omega)
          | (exfalso; omega)
      | some a =>
        have ha' : 0 < a := hga a hck
        dsimp only
        try simp only [Option.getD_none, Option.getD_some]
        split_ifs <;> try simp only [Option.getD_none, Option.getD_some] at *
        all_goals first
          | rfl
          | omega
          | (congr 1; omega)
          | (exfalso; omega)
  | some w1 =>
    have hw1' : w1 ≤ (cfind c k).getD 0 := hgw1 w1 hd1
    cases hd2 : cfind d2 k with
    | none =>
      cases hck : cfind c k with
      | none => rfl
      | some a => rfl
    | some w2 =>
      have hw2' : 0 < w2 := hgw2 w2 hd2
      cases hck : cfind c k with
      | none =>
        rw [hck] at hw1'
        simp only [Option.getD_none] at hw1'
        dsimp only
        try simp only [Option.getD_none, Option.getD_some]
        split_ifs <;> try simp only [Option.getD_none, Option.getD_some] at *
        all_goals first
          | rfl
          | omega
          | (congr 1; omega)
          | (exfalso; omega)
      | some a =>
        have ha' : 0 < a := hga a hck
        rw [hck] at hw1'
        simp only [Option.getD_some] at hw1'
        dsimp only
        try simp only [Option.getD_none, Option.getD_some]
        split_ifs <;> try simp only [Option.getD_none, Option.getD_some] at *
        all_goals first
          | rfl
          | omega
          | (congr 1; omega)
          | (exfalso; omega)

theorem C9_witness :
    ((ckeys [(0, 3), (1, 1)]).Nodup ∧ (ckeys [(0, 2)]).Nodup ∧
        (ckeys [(1, 4)]).Nodup) ∧
      cfind (update_counted_data_items
          (subtract_counted_data_items [(0, 3), (1, 1)] [(0, 2)]) [(1, 4)]) 0
        = cfind (subtract_counted_data_items
            (update_counted_data_items [(0, 3), (1, 1)] [(1, 4)]) [(0, 2)]) 0 :=
  ⟨⟨by decide, by decide, by decide⟩,
    C9_add_subtract_commute_without_clamping [(0, 3), (1, 1)] [(0, 2)] [(1, 4)] 0
      (by decide) (by decide) (by decide) (by decide) (by decide) (by decide)⟩

theorem C5_witness :
    (Binding.init.change_level = 0 ∧ (begin_change Binding.init).change_level = 1) ∧
      (begin_change Binding.init).change_level = Binding.init.change_level + 1 ∧
        (begin_change Binding.init).settle_count = Binding.init.settle_count ∧
        (end_change (fun _ => true) (fun _ => [])
            (begin_change Binding.init)).change_level
          = (begin_change Binding.init).change_level - 1 ∧
        (end_change (fun _ => true) (fun _ => [])
            (begin_change Binding.init)).settle_count
          = (begin_change Binding.init).settle_count + 1 ∧
        (end_change (fun _ => true) (fun _ => [])
            (binding_update_counted (fun _ => true) (fun _ => []) [(0, 1)]
              (binding_update_counted (fun _ => true) (fun _ => []) [(0, 1)]
                (binding_update_counted (fun _ => true) (fun _ => []) [(0, 1)]
                  (begin_change Binding.init))))).settle_count
          = Binding.init.settle_count + 1 :=
  ⟨⟨by decide, by decide⟩,
    C5_change_batching (fun _ => true) (fun _ => []) Binding.init
      (begin_change Binding.init) [(0, 1)] [(0, 1)] [(0, 1)] (by decide) (by decide)⟩
